import Mathlib

/-!
Verification of the heuristic extraction core of the card-benefits scraper.

The reference implementation lives in `src/scrape.py`.  Python strings are
modelled as lists of characters (`Str`), Python's truthiness of strings as
emptiness tests, and Python's `str.find` / slicing by executable functions on
lists.  The regular-expression engine and the browser are external
collaborators: `find_first` is parameterised by the search function the engine
provides, and the driver loop is parameterised by a fetch function returning
either the page's visible text or the raised exception's type name.
-/

set_option autoImplicit false

namespace Scrape

/-- Python strings, modelled as lists of characters. -/
abbrev Str := List Char

/-- A Lean string literal viewed as a modelled Python string. -/
def lit (s : String) : Str := s.data

/-- The whitespace class of the reference implementation's whitespace
pattern, restricted to ASCII: space, tab, newline, carriage return,
vertical tab and form feed. -/
def isWS (c : Char) : Bool :=
  c = ' ' || c = '\t' || c = '\n' || c = '\r' || c = '\x0b' || c = '\x0c'

/-- Replace every maximal whitespace run by a single space (the substitution
step of `normalize_ws`); the flag records whether the previous character was
whitespace, so only the first character of a run emits a space. -/
def collapseWS : Bool → Str → Str
  | _, [] => []
  | true, c :: rest =>
    if isWS c then collapseWS true rest else c :: collapseWS false rest
  | false, c :: rest =>
    if isWS c then ' ' :: collapseWS true rest else c :: collapseWS false rest

/-- Remove leading whitespace (the left half of `str.strip()`). -/
def stripLeft (s : Str) : Str := s.dropWhile isWS

/-- Remove trailing whitespace (the right half of `str.strip()`). -/
def stripRight : Str → Str
  | [] => []
  | c :: rest =>
    if isWS c = true ∧ stripRight rest = [] then [] else c :: stripRight rest

/-- `normalize_ws` from the source: collapse each whitespace run to a single
space, then strip leading and trailing whitespace. -/
def normalize_ws (s : Str) : Str := stripRight (stripLeft (collapseWS false s))

/-- Python `str.find`: the index of the first occurrence of `needle` in the
string, `none` when absent. -/
def pyFind (needle : Str) : Str → Option Nat
  | [] => if needle.isPrefixOf ([] : Str) then some 0 else none
  | c :: t =>
    if needle.isPrefixOf (c :: t) then some 0 else (pyFind needle t).map (· + 1)

/-- Python `str.lower`, per character. -/
def lower (s : Str) : Str := s.map Char.toLower

/-- `pick_snippet` from the source: locate the first case-insensitive
occurrence of `keyword`, slice `text[max(0, idx - window) : min(len, idx + window)]`
and normalise it; empty text or an absent keyword yields the empty string. -/
def pick_snippet (text keyword : Str) (window : Nat := 220) : Str :=
  if text = [] then []
  else
    match pyFind (lower keyword) (lower text) with
    | none => []
    | some idx =>
      let start := idx - window
      let stop := min text.length (idx + window)
      normalize_ws ((text.drop start).take (stop - start))

/-- Python `or` on strings: the left operand unless it is empty (falsy). -/
def pyOr (a b : Str) : Str := if a = [] then b else a

/-- `find_first` from the source, parameterised by the engine's search
function: try the patterns in list order and return the normalised full span
of the first pattern whose search succeeds anywhere in the text. -/
def find_first (search : Str → Str → Option Str) (patterns : List Str)
    (text : Str) : Str :=
  match patterns with
  | [] => []
  | p :: ps =>
    match search p text with
    | some m => normalize_ws m
    | none => find_first search ps text

/-- Case-insensitive search for a literal pattern, returning the matched span:
the behaviour of the engine's search on a pattern without metacharacters. -/
def isearch (p text : Str) : Option Str :=
  (pyFind (lower p) (lower text)).map (fun idx => (text.drop idx).take p.length)

/-- The `welcome_bonus` pattern set, in source order. -/
def welcome_bonus_patterns : List Str :=
  [lit "(Earn|Get)\\s+(?:up to\\s+)?[\\d,]+\\s+(points|miles)\\b[^.]\x7b0,120\x7d",
   lit "[\\d,]+\\s+(points|miles)\\s+(welcome|bonus)[^.]\x7b0,120\x7d",
   lit "(Earn|Get)\\s+\\$[\\d,]+\\b[^.]\x7b0,120\x7d"]

/-- The `spend_requirement` pattern set, in source order. -/
def spend_requirement_patterns : List Str :=
  [lit "after you spend\\s+\\$[\\d,]+[^.]\x7b0,120\x7d",
   lit "after spending\\s+\\$[\\d,]+[^.]\x7b0,120\x7d",
   lit "spend\\s+\\$[\\d,]+[^.]\x7b0,120\x7d"]

/-- The `annual_fee` pattern set, in source order. -/
def annual_fee_patterns : List Str :=
  [lit "annual fee[^.]\x7b0,60\x7d",
   lit "\\$\\d+\\s+annual fee[^.]\x7b0,60\x7d"]

/-- The `accelerators` pattern set, in source order. -/
def accelerator_patterns : List Str :=
  [lit "\\b\\d+x\\b[^.]\x7b0,140\x7d",
   lit "\\b\\d+\\s*(points|miles)\\b\\s+per\\s+\\$1[^.]\x7b0,140\x7d",
   lit "earn\\s+\\d+\\s*(points|miles)[^.]\x7b0,140\x7d"]

/-- The `perks_hint` pattern set, in source order. -/
def perks_patterns : List Str :=
  [lit "free\\s+checked\\s+bag[^.]\x7b0,140\x7d",
   lit "priority\\s+boarding[^.]\x7b0,140\x7d",
   lit "anniversary[^.]\x7b0,140\x7d",
   lit "companion[^.]\x7b0,140\x7d",
   lit "statement\\s+credit[^.]\x7b0,140\x7d",
   lit "lounge[^.]\x7b0,140\x7d"]

/-- `bonus_snippet` from the evidence dictionary of `parse_fields`. -/
def bonus_snippet (text : Str) : Str :=
  pyOr (pick_snippet text (lit "bonus")) (pick_snippet text (lit "Earn"))

/-- `spend_snippet` from the evidence dictionary of `parse_fields`. -/
def spend_snippet (text : Str) : Str :=
  pyOr (pick_snippet text (lit "spend")) (pick_snippet text (lit "after you spend"))

/-- `fee_snippet` from the evidence dictionary of `parse_fields`. -/
def fee_snippet (text : Str) : Str := pick_snippet text (lit "annual fee")

/-- `earn_snippet` from the evidence dictionary of `parse_fields`. -/
def earn_snippet (text : Str) : Str :=
  pyOr (pick_snippet text (lit "per $1")) (pick_snippet text (lit "x"))

/-- The keyword chain each audit snippet tries, in source order: each field's
value is the first keyword of its chain whose `pick_snippet` is non-empty. -/
def snippetKeywords : List (String × List String) :=
  [("bonus_snippet", ["bonus", "Earn"]),
   ("spend_snippet", ["spend", "after you spend"]),
   ("fee_snippet", ["annual fee"]),
   ("earn_snippet", ["per $1", "x"])]

/-- Evaluate a keyword chain: `pick_snippet` results chained with Python `or`. -/
def snippetFromChain (text : Str) (ks : List String) : Str :=
  ks.foldr (fun k acc => pyOr (pick_snippet text (lit k)) acc) []

/-- The evidence dictionary of `parse_fields`, as an association list in
source order. -/
def evidence (text : Str) : List (String × Str) :=
  [("bonus_snippet", bonus_snippet text),
   ("spend_snippet", spend_snippet text),
   ("fee_snippet", fee_snippet text),
   ("earn_snippet", earn_snippet text)]

/-- The record returned by `parse_fields`. -/
structure ExtractionRecord where
  welcome_bonus : Str
  spend_requirement : Str
  accelerators : Str
  annual_fee_text : Str
  perks_hint : Str
  bonus_snippet : Str
  spend_snippet : Str
  fee_snippet : Str
  earn_snippet : Str
deriving DecidableEq

/-- `parse_fields` from the source, parameterised by the engine's search
function used for the pattern fields. -/
def parse_fields (search : Str → Str → Option Str) (text : Str) :
    ExtractionRecord :=
  { welcome_bonus := find_first search welcome_bonus_patterns text
    spend_requirement := find_first search spend_requirement_patterns text
    accelerators := find_first search accelerator_patterns text
    annual_fee_text := find_first search annual_fee_patterns text
    perks_hint := find_first search perks_patterns text
    bonus_snippet := bonus_snippet text
    spend_snippet := spend_snippet text
    fee_snippet := fee_snippet text
    earn_snippet := earn_snippet text }

/-- A configured card: identity fields read from the configuration. -/
structure Card where
  id : Str
  name : Str
  issuer : Str
  url : Str
deriving DecidableEq

/-- One output row: the card identity, the status, and the extraction fields
(`none` when the row never reached extraction). -/
structure ResultRow where
  id : Str
  name : Str
  issuer : Str
  url : Str
  status : Str
  fields : Option ExtractionRecord
deriving DecidableEq

/-- The placeholder url marking a card as not yet configured. -/
def sentinel : Str := lit "PASTE_PUBLIC_CARD_URL_HERE"

/-- Python's `in` on strings: substring containment. -/
def containsSub (hay needle : Str) : Bool := (pyFind needle hay).isSome

/-- One iteration of the driver loop of `main`.  Browser navigation together
with visible-text extraction is the collaborator boundary, modelled by
`fetchPage`, which returns either the page's visible text or the raised
exception's type name. -/
def processCard (search : Str → Str → Option Str)
    (fetchPage : Str → Except Str Str) (c : Card) : ResultRow :=
  if c.url.isEmpty || containsSub c.url sentinel then
    { id := c.id, name := c.name, issuer := c.issuer, url := c.url,
      status := lit "MISSING_URL", fields := none }
  else
    match fetchPage c.url with
    | .ok text =>
      { id := c.id, name := c.name, issuer := c.issuer, url := c.url,
        status := lit "OK", fields := some (parse_fields search text) }
    | .error kind =>
      { id := c.id, name := c.name, issuer := c.issuer, url := c.url,
        status := lit "ERROR: " ++ kind, fields := none }

/-- The rows produced by one run of `main` over the configured cards. -/
def mainRows (search : Str → Str → Option Str)
    (fetchPage : Str → Except Str Str) (cards : List Card) : List ResultRow :=
  cards.map (processCard search fetchPage)

/-- The snippet contract exactly as the specification words it: the span runs
from `occurrence_start - window` to `occurrence_end + window`, where
`occurrence_end` is the index just past the keyword occurrence.  Written for
comparison with `pick_snippet`, whose right edge is measured from the
occurrence start instead. -/
def pick_snippet_spec (text keyword : Str) (window : Nat := 220) : Str :=
  if text = [] then []
  else
    match pyFind (lower keyword) (lower text) with
    | none => []
    | some idx =>
      let start := idx - window
      let stop := min text.length (idx + keyword.length + window)
      normalize_ws ((text.drop start).take (stop - start))

/-- Whether the first character of the string is whitespace. -/
def hasLeadWS : Str → Bool
  | [] => false
  | c :: _ => isWS c

/-- Whether the last character of the string is whitespace. -/
def hasTrailWS : Str → Bool
  | [] => false
  | [c] => isWS c
  | _ :: c :: rest => hasTrailWS (c :: rest)

/-- Whether two consecutive whitespace characters occur anywhere. -/
def hasRun : Str → Bool
  | a :: b :: t => (isWS a && isWS b) || hasRun (b :: t)
  | _ => false

/-- Every whitespace character of the string is a plain space. -/
def wsNormal (s : Str) : Prop := ∀ c ∈ s, isWS c = true → c = ' '

end Scrape

namespace Scrape

theorem hasRun_cons (c : Char) (l : Str) :
    hasRun (c :: l) = ((isWS c && hasLeadWS l) || hasRun l) := by
  cases l <;> simp [hasRun, hasLeadWS]

theorem hasTrailWS_cons (c : Char) (l : Str) :
    hasTrailWS (c :: l) = if l = [] then isWS c else hasTrailWS l := by
  cases l <;> simp [hasTrailWS]

theorem collapseWS_wsNormal (b : Bool) (s : Str) : wsNormal (collapseWS b s) := by
  induction s generalizing b with
  | nil => intro c hc; cases b <;> simp [collapseWS] at hc
  | cons a t ih =>
    intro c hc hws
    cases b with
    | true =>
      by_cases ha : isWS a = true
      · simp only [collapseWS, if_pos ha] at hc
        exact ih true c hc hws
      · simp only [collapseWS, if_neg ha] at hc
        rcases List.mem_cons.mp hc with h | h
        · subst h; exact absurd hws ha
        · exact ih false c h hws
    | false =>
      by_cases ha : isWS a = true
      · simp only [collapseWS, if_pos ha] at hc
        rcases List.mem_cons.mp hc with h | h
        · exact h
        · exact ih true c h hws
      · simp only [collapseWS, if_neg ha] at hc
        rcases List.mem_cons.mp hc with h | h
        · subst h; exact absurd hws ha
        · exact ih false c h hws

theorem collapseWS_true_noLead (s : Str) : hasLeadWS (collapseWS true s) = false := by
  induction s with
  | nil => rfl
  | cons a t ih =>
    by_cases ha : isWS a = true
    · simp only [collapseWS, if_pos ha]; exact ih
    · simp only [collapseWS, if_neg ha, hasLeadWS]
      exact Bool.eq_false_iff.mpr ha

theorem collapseWS_noRun (b : Bool) (s : Str) : hasRun (collapseWS b s) = false := by
  induction s generalizing b with
  | nil => cases b <;> rfl
  | cons a t ih =>
    cases b with
    | true =>
      by_cases ha : isWS a = true
      · simp only [collapseWS, if_pos ha]; exact ih true
      · simp only [collapseWS, if_neg ha, hasRun_cons]
        simp only [Bool.not_eq_true] at ha
        simp [ha, ih false]
    | false =>
      by_cases ha : isWS a = true
      · simp only [collapseWS, if_pos ha, hasRun_cons]
        simp [collapseWS_true_noLead, ih true]
      · simp only [collapseWS, if_neg ha, hasRun_cons]
        simp only [Bool.not_eq_true] at ha
        simp [ha, ih false]

theorem mem_stripLeft {c : Char} {s : Str} (h : c ∈ stripLeft s) : c ∈ s := by
  induction s with
  | nil => simp [stripLeft] at h
  | cons a t ih =>
    by_cases ha : isWS a = true
    · rw [stripLeft, List.dropWhile_cons, if_pos ha] at h
      exact List.mem_cons_of_mem a (ih h)
    · rw [stripLeft, List.dropWhile_cons, if_neg ha] at h
      exact h

theorem mem_stripRight {c : Char} {s : Str} (h : c ∈ stripRight s) : c ∈ s := by
  induction s with
  | nil => simp [stripRight] at h
  | cons a t ih =>
    by_cases hcond : isWS a = true ∧ stripRight t = []
    · rw [stripRight, if_pos hcond] at h
      simp at h
    · rw [stripRight, if_neg hcond] at h
      rcases List.mem_cons.mp h with h1 | h1
      · subst h1; exact List.mem_cons_self _ _
      · exact List.mem_cons_of_mem _ (ih h1)

theorem stripLeft_noLead (s : Str) : hasLeadWS (stripLeft s) = false := by
  induction s with
  | nil => rfl
  | cons a t ih =>
    by_cases ha : isWS a = true
    · rw [stripLeft, List.dropWhile_cons, if_pos ha]; exact ih
    · rw [stripLeft, List.dropWhile_cons, if_neg ha]
      simp only [Bool.not_eq_true] at ha
      simpa [hasLeadWS] using ha

theorem stripLeft_noRun {s : Str} (h : hasRun s = false) : hasRun (stripLeft s) = false := by
  induction s with
  | nil => rfl
  | cons a t ih =>
    by_cases ha : isWS a = true
    · rw [stripLeft, List.dropWhile_cons, if_pos ha]
      refine ih ?_
      rw [hasRun_cons, Bool.or_eq_false_iff] at h
      exact h.2
    · rwa [stripLeft, List.dropWhile_cons, if_neg ha]

theorem stripRight_lead (s : Str) :
    stripRight s = [] ∨ hasLeadWS (stripRight s) = hasLeadWS s := by
  cases s with
  | nil => exact Or.inl rfl
  | cons a t =>
    by_cases hcond : isWS a = true ∧ stripRight t = []
    · rw [stripRight, if_pos hcond]; exact Or.inl rfl
    · rw [stripRight, if_neg hcond]; exact Or.inr rfl

theorem stripRight_noRun {s : Str} (h : hasRun s = false) : hasRun (stripRight s) = false := by
  induction s with
  | nil => rfl
  | cons a t ih =>
    rw [hasRun_cons, Bool.or_eq_false_iff] at h
    by_cases hcond : isWS a = true ∧ stripRight t = []
    · rw [stripRight, if_pos hcond]; rfl
    · rw [stripRight, if_neg hcond, hasRun_cons, Bool.or_eq_false_iff]
      refine ⟨?_, ih h.2⟩
      rcases Bool.and_eq_false_iff.mp h.1 with h1 | h1
      · simp [h1]
      · rcases stripRight_lead t with h2 | h2
        · simp [h2, hasLeadWS]
        · simp [h2, h1]

theorem stripRight_noTrail (s : Str) : hasTrailWS (stripRight s) = false := by
  induction s with
  | nil => rfl
  | cons a t ih =>
    by_cases hcond : isWS a = true ∧ stripRight t = []
    · rw [stripRight, if_pos hcond]; rfl
    · rw [stripRight, if_neg hcond, hasTrailWS_cons]
      by_cases hnil : stripRight t = []
      · rw [if_pos hnil]
        have hna : ¬ isWS a = true := fun hw => hcond ⟨hw, hnil⟩
        exact Bool.eq_false_iff.mpr hna
      · rw [if_neg hnil]; exact ih

theorem collapseWS_id {s : Str} (hn : wsNormal s) (hr : hasRun s = false) :
    collapseWS false s = s ∧ (hasLeadWS s = false → collapseWS true s = s) := by
  induction s with
  | nil => exact ⟨rfl, fun _ => rfl⟩
  | cons a t ih =>
    have hnt : wsNormal t := fun c hc => hn c (List.mem_cons_of_mem _ hc)
    have hrt : hasRun t = false := by
      rw [hasRun_cons, Bool.or_eq_false_iff] at hr; exact hr.2
    have hpair : (isWS a && hasLeadWS t) = false := by
      rw [hasRun_cons, Bool.or_eq_false_iff] at hr; exact hr.1
    rcases ih hnt hrt with ⟨ihf, iht⟩
    by_cases ha : isWS a = true
    · have ha' : a = ' ' := hn a (List.mem_cons_self _ _) ha
      have hlt : hasLeadWS t = false := by
        cases hL : hasLeadWS t
        · rfl
        · rw [ha, hL] at hpair; simp at hpair
      constructor
      · simp only [collapseWS, if_pos ha]
        rw [iht hlt, ha']
      · intro hlead
        rw [show hasLeadWS (a :: t) = isWS a from rfl, ha] at hlead
        cases hlead
    · constructor
      · simp only [collapseWS, if_neg ha, ihf]
      · intro _
        simp only [collapseWS, if_neg ha, ihf]

theorem stripLeft_id {s : Str} (h : hasLeadWS s = false) : stripLeft s = s := by
  cases s with
  | nil => rfl
  | cons a t =>
    have ha : ¬ isWS a = true := by
      rw [show hasLeadWS (a :: t) = isWS a from rfl] at h
      simp [h]
    rw [stripLeft, List.dropWhile_cons, if_neg ha]

theorem stripRight_id {s : Str} (h : hasTrailWS s = false) : stripRight s = s := by
  induction s with
  | nil => rfl
  | cons a t ih =>
    rw [hasTrailWS_cons] at h
    by_cases hnil : t = []
    · subst hnil
      rw [if_pos rfl] at h
      rw [stripRight, if_neg]
      · simp [stripRight]
      · intro hc; rw [h] at hc; cases hc.1
    · rw [if_neg hnil] at h
      have ht := ih h
      rw [stripRight, ht, if_neg]
      intro hc; exact hnil hc.2

theorem normalize_wsNormal (s : Str) : wsNormal (normalize_ws s) := by
  intro c hc hw
  exact collapseWS_wsNormal false s c (mem_stripLeft (mem_stripRight hc)) hw

theorem normalize_noRun (s : Str) : hasRun (normalize_ws s) = false :=
  stripRight_noRun (stripLeft_noRun (collapseWS_noRun false s))

theorem normalize_noTrail (s : Str) : hasTrailWS (normalize_ws s) = false :=
  stripRight_noTrail _

theorem normalize_noLead (s : Str) : hasLeadWS (normalize_ws s) = false := by
  rcases stripRight_lead (stripLeft (collapseWS false s)) with h | h
  · rw [normalize_ws, h]; rfl
  · rw [normalize_ws, h]; exact stripLeft_noLead _

/-- C6: `normalize_ws` is idempotent — normalising an already normalised
string returns it unchanged. -/
theorem normalize_ws_idempotent (s : Str) :
    normalize_ws (normalize_ws s) = normalize_ws s := by
  have h1 := normalize_wsNormal s
  have h2 := normalize_noRun s
  have h3 := normalize_noLead s
  have h4 := normalize_noTrail s
  have hc := (collapseWS_id h1 h2).1
  rw [normalize_ws, hc, stripLeft_id h3, stripRight_id h4]

/-- C7: the output of `normalize_ws` never has leading whitespace, trailing
whitespace, or a run of two or more consecutive whitespace characters. -/
theorem normalize_ws_no_edge_ws_no_runs (s : Str) :
    hasLeadWS (normalize_ws s) = false ∧ hasTrailWS (normalize_ws s) = false ∧
      hasRun (normalize_ws s) = false :=
  ⟨normalize_noLead s, normalize_noTrail s, normalize_noRun s⟩

end Scrape

namespace Scrape

theorem length_collapseWS_le (b : Bool) (s : Str) :
    (collapseWS b s).length ≤ s.length := by
  induction s generalizing b with
  | nil => cases b <;> simp [collapseWS]
  | cons a t ih =>
    cases b with
    | true =>
      by_cases ha : isWS a = true
      · simp only [collapseWS, if_pos ha]
        exact Nat.le_succ_of_le (ih true)
      · simp only [collapseWS, if_neg ha, List.length_cons]
        exact Nat.succ_le_succ (ih false)
    | false =>
      by_cases ha : isWS a = true
      · simp only [collapseWS, if_pos ha, List.length_cons]
        exact Nat.succ_le_succ (ih true)
      · simp only [collapseWS, if_neg ha, List.length_cons]
        exact Nat.succ_le_succ (ih false)

theorem length_stripLeft_le (s : Str) : (stripLeft s).length ≤ s.length := by
  induction s with
  | nil => simp [stripLeft]
  | cons a t ih =>
    by_cases ha : isWS a = true
    · rw [stripLeft, List.dropWhile_cons, if_pos ha]
      exact Nat.le_succ_of_le ih
    · rw [stripLeft, List.dropWhile_cons, if_neg ha]

theorem length_stripRight_le (s : Str) : (stripRight s).length ≤ s.length := by
  induction s with
  | nil => simp [stripRight]
  | cons a t ih =>
    by_cases hcond : isWS a = true ∧ stripRight t = []
    · rw [stripRight, if_pos hcond]; simp
    · rw [stripRight, if_neg hcond, List.length_cons]
      exact Nat.succ_le_succ ih

theorem length_normalize_le (s : Str) : (normalize_ws s).length ≤ s.length :=
  le_trans (length_stripRight_le _)
    (le_trans (length_stripLeft_le _) (length_collapseWS_le _ _))

/-- C8: the snippet returned by `pick_snippet` is never longer than
`2 * window + keyword.length`. -/
theorem pick_snippet_length_le (text keyword : Str) (window : Nat) :
    (pick_snippet text keyword window).length ≤ 2 * window + keyword.length := by
  by_cases ht : text = []
  · simp [pick_snippet, ht]
  · cases hf : pyFind (lower keyword) (lower text) with
    | none => simp [pick_snippet, ht, hf]
    | some idx =>
      simp only [pick_snippet, if_neg ht, hf]
      refine le_trans (length_normalize_le _) ?_
      rw [List.length_take, List.length_drop]
      omega

end Scrape

namespace Scrape

theorem isPrefixOf_iff_ex (n h : Str) : n.isPrefixOf h = true ↔ ∃ t, n ++ t = h := by
  induction n generalizing h with
  | nil => simp [List.isPrefixOf]
  | cons a as ih =>
    cases h with
    | nil => simp [List.isPrefixOf]
    | cons b bs =>
      simp only [List.isPrefixOf, Bool.and_eq_true, beq_iff_eq, List.cons_append,
        List.cons.injEq]
      constructor
      · rintro ⟨rfl, hp⟩
        rcases (ih bs).mp hp with ⟨t, rfl⟩
        exact ⟨t, rfl, rfl⟩
      · rintro ⟨t, rfl, rfl⟩
        exact ⟨rfl, (ih _).mpr ⟨t, rfl⟩⟩

theorem pyFind_some_drop {needle hay : Str} {i : Nat}
    (h : pyFind needle hay = some i) : ∃ t, needle ++ t = hay.drop i := by
  induction hay generalizing i with
  | nil =>
    rw [pyFind] at h
    by_cases hp : needle.isPrefixOf ([] : Str) = true
    · rw [if_pos hp] at h
      injection h with h0
      subst h0
      exact (isPrefixOf_iff_ex _ _).mp hp
    · rw [if_neg hp] at h; cases h
  | cons c t ih =>
    rw [pyFind] at h
    by_cases hp : needle.isPrefixOf (c :: t) = true
    · rw [if_pos hp] at h
      injection h with h0
      subst h0
      exact (isPrefixOf_iff_ex _ _).mp hp
    · rw [if_neg hp] at h
      cases hfind : pyFind needle t with
      | none => rw [hfind] at h; cases h
      | some j =>
        rw [hfind] at h
        simp only [Option.map_some'] at h
        injection h with h0
        subst h0
        exact ih hfind

theorem pyFind_isSome_of_drop {needle hay : Str} {j : Nat} {t : Str}
    (h : hay.drop j = needle ++ t) : (pyFind needle hay).isSome = true := by
  induction hay generalizing j with
  | nil =>
    rw [List.drop_nil] at h
    rcases List.append_eq_nil.mp h.symm with ⟨rfl, rfl⟩
    simp [pyFind, List.isPrefixOf]
  | cons c ht ih =>
    cases j with
    | zero =>
      rw [List.drop_zero] at h
      have hp : needle.isPrefixOf (c :: ht) = true :=
        (isPrefixOf_iff_ex _ _).mpr ⟨t, h.symm⟩
      rw [pyFind, if_pos hp]; rfl
    | succ j' =>
      rw [List.drop_succ_cons] at h
      have hsome := ih h
      rw [pyFind]
      by_cases hp : needle.isPrefixOf (c :: ht) = true
      · rw [if_pos hp]; rfl
      · rw [if_neg hp]
        cases hx : pyFind needle ht with
        | none => rw [hx] at hsome; cases hsome
        | some k => rfl

theorem mem_take_of_drop_eq {A : Str} :
    ∀ {m n : Nat} {c : Char} {r : Str}, A.drop m = c :: r → m < n → c ∈ A.take n := by
  induction A with
  | nil =>
    intro m n c r h _
    rw [List.drop_nil] at h
    cases h
  | cons a t ih =>
    intro m n c r h hmn
    cases m with
    | zero =>
      rw [List.drop_zero] at h
      injection h with h1 h2
      subst h1
      cases n with
      | zero => omega
      | succ n' =>
        rw [List.take_succ_cons]
        exact List.mem_cons_self _ _
    | succ m' =>
      cases n with
      | zero => omega
      | succ n' =>
        rw [List.drop_succ_cons] at h
        rw [List.take_succ_cons]
        exact List.mem_cons_of_mem _ (ih h (by omega))

theorem collapseWS_keeps {c : Char} (hc : isWS c = false) :
    ∀ (s : Str) (b : Bool), c ∈ s → c ∈ collapseWS b s := by
  intro s
  induction s with
  | nil => intro b h; cases h
  | cons a t ih =>
    intro b h
    rcases List.mem_cons.mp h with rfl | hmem
    · have ha : ¬ isWS c = true := by simp [hc]
      cases b with
      | true =>
        simp only [collapseWS, if_neg ha]
        exact List.mem_cons_self _ _
      | false =>
        simp only [collapseWS, if_neg ha]
        exact List.mem_cons_self _ _
    · by_cases ha : isWS a = true
      · cases b with
        | true =>
          simp only [collapseWS, if_pos ha]
          exact ih true hmem
        | false =>
          simp only [collapseWS, if_pos ha]
          exact List.mem_cons_of_mem _ (ih true hmem)
      · cases b with
        | true =>
          simp only [collapseWS, if_neg ha]
          exact List.mem_cons_of_mem _ (ih false hmem)
        | false =>
          simp only [collapseWS, if_neg ha]
          exact List.mem_cons_of_mem _ (ih false hmem)

theorem stripLeft_keeps {c : Char} (hc : isWS c = false) :
    ∀ s : Str, c ∈ s → c ∈ stripLeft s := by
  intro s
  induction s with
  | nil => intro h; cases h
  | cons a t ih =>
    intro h
    by_cases ha : isWS a = true
    · rw [stripLeft, List.dropWhile_cons, if_pos ha]
      rcases List.mem_cons.mp h with rfl | hmem
      · rw [hc] at ha; cases ha
      · exact ih hmem
    · rw [stripLeft, List.dropWhile_cons, if_neg ha]
      exact h

theorem stripRight_keeps_ne_nil {c : Char} (hc : isWS c = false) :
    ∀ s : Str, c ∈ s → stripRight s ≠ [] := by
  intro s
  induction s with
  | nil => intro h; cases h
  | cons a t ih =>
    intro h
    rcases List.mem_cons.mp h with rfl | hmem
    · rw [stripRight, if_neg]
      · simp
      · intro hcond; rw [hc] at hcond; cases hcond.1
    · rw [stripRight, if_neg]
      · simp
      · intro hcond; exact ih hmem hcond.2

theorem normalize_ne_nil {c : Char} {s : Str} (hc : isWS c = false) (h : c ∈ s) :
    normalize_ws s ≠ [] :=
  stripRight_keeps_ne_nil hc _ (stripLeft_keeps hc _ (collapseWS_keeps hc _ false h))

theorem isWS_eq_false_of_toLower_s {c : Char} (h : c.toLower = 's') :
    isWS c = false := by
  by_contra hws
  simp only [Bool.not_eq_false] at hws
  rw [isWS] at hws
  simp only [Bool.or_eq_true, decide_eq_true_eq] at hws
  rcases hws with ((((h1 | h1) | h1) | h1) | h1) | h1 <;> subst h1 <;>
    exact absurd h (by decide)

end Scrape

namespace Scrape

theorem pick_snippet_ne_nil_of_found {text keyword : Str} {idx : Nat}
    {k0 : Char} {krest : Str} (hk : lower keyword = k0 :: krest)
    (hws : ∀ c : Char, c.toLower = k0 → isWS c = false)
    {window : Nat} (hw : 1 ≤ window)
    (hf : pyFind (lower keyword) (lower text) = some idx) :
    pick_snippet text keyword window ≠ [] := by
  rcases pyFind_some_drop hf with ⟨t, hdrop⟩
  rw [hk] at hdrop
  have hdrop' : (lower text).drop idx = k0 :: (krest ++ t) := by
    rw [← hdrop]; simp
  have hmapped : (text.drop idx).map Char.toLower = k0 :: (krest ++ t) := by
    rw [lower] at hdrop'
    rw [List.map_drop]
    exact hdrop'
  cases hdtext : text.drop idx with
  | nil => rw [hdtext] at hmapped; cases hmapped
  | cons c r =>
    rw [hdtext] at hmapped
    simp only [List.map_cons, List.cons.injEq] at hmapped
    have hcns : isWS c = false := hws c hmapped.1
    have hidx : idx < text.length := by
      have hlen := congrArg List.length hdtext
      rw [List.length_drop, List.length_cons] at hlen
      omega
    have hdd : (text.drop (idx - window)).drop (idx - (idx - window)) = c :: r := by
      rw [List.drop_drop,
        show (idx - window) + (idx - (idx - window)) = idx by omega]
      exact hdtext
    have hslice : c ∈ (text.drop (idx - window)).take
        (min text.length (idx + window) - (idx - window)) :=
      mem_take_of_drop_eq hdd (by omega)
    have htne : text ≠ [] := by
      intro h0; rw [h0] at hidx; simp at hidx
    simp only [pick_snippet, if_neg htne, hf]
    exact normalize_ne_nil hcns hslice

/-- C10: the secondary keyword of `spend_snippet` can never contribute — the
primary keyword "spend" is a substring of "after you spend", so whenever the
primary snippet is empty the fallback snippet is empty too, and the field
always equals the primary `pick_snippet`. -/
theorem spend_snippet_fallback_unreachable (text : Str) :
    spend_snippet text = pick_snippet text (lit "spend") ∧
      (pick_snippet text (lit "spend") = [] →
        pick_snippet text (lit "after you spend") = []) := by
  have key : pick_snippet text (lit "spend") = [] →
      pick_snippet text (lit "after you spend") = [] := by
    intro hsp
    by_contra hays
    have hfound : ∃ i, pyFind (lower (lit "after you spend")) (lower text) = some i := by
      by_cases ht : text = []
      · exact absurd (by rw [pick_snippet, if_pos ht]) hays
      · cases hfa : pyFind (lower (lit "after you spend")) (lower text) with
        | none => exact absurd (by simp [pick_snippet, if_neg ht, hfa]) hays
        | some i => exact ⟨i, rfl⟩
    rcases hfound with ⟨i, hfa⟩
    rcases pyFind_some_drop hfa with ⟨t, hdrop⟩
    have hsplit : lower (lit "after you spend") = lit "after you " ++ lit "spend" := by
      decide
    have h1 : (lower text).drop i = lit "after you " ++ (lit "spend" ++ t) := by
      rw [← hdrop, hsplit, List.append_assoc]
    have h2 : ((lower text).drop i).drop 10 = lit "spend" ++ t := by
      rw [h1, show (10 : Nat) = (lit "after you ").length by decide, List.drop_left]
    rw [List.drop_drop] at h2
    have hspfound : (pyFind (lit "spend") (lower text)).isSome = true :=
      pyFind_isSome_of_drop h2
    have hlsp : lower (lit "spend") = lit "spend" := by decide
    cases hfs : pyFind (lower (lit "spend")) (lower text) with
    | none =>
      rw [hlsp] at hfs
      rw [hfs] at hspfound
      cases hspfound
    | some j =>
      have hk : lower (lit "spend") = 's' :: lit "pend" := by decide
      have hne : pick_snippet text (lit "spend") ≠ [] :=
        pick_snippet_ne_nil_of_found hk
          (fun c hcl => isWS_eq_false_of_toLower_s hcl) (by omega) hfs
      exact hne hsp
  refine ⟨?_, key⟩
  rw [spend_snippet, pyOr]
  by_cases hsp : pick_snippet text (lit "spend") = []
  · rw [if_pos hsp, key hsp, hsp]
  · rw [if_neg hsp]

/-- C10 witness: at the concrete text "qq" neither keyword occurs; the field
equals the primary snippet and the fallback snippet is empty. -/
theorem spend_snippet_fallback_unreachable_witness :
    spend_snippet (lit "qq") = pick_snippet (lit "qq") (lit "spend") ∧
      pick_snippet (lit "qq") (lit "after you spend") = [] :=
  ⟨(spend_snippet_fallback_unreachable (lit "qq")).1,
   (spend_snippet_fallback_unreachable (lit "qq")).2 (by decide)⟩

end Scrape

namespace Scrape

theorem normalize_nil : normalize_ws [] = [] := rfl

/-- C1 (amended): when the keyword occurs case-insensitively at index `idx`,
`pick_snippet` returns the normalised slice of `text` spanning
`[occurrence_start - window, occurrence_start + window]` clipped to the text
bounds — the right edge is measured from the START of the occurrence, not
from the index just past it as the specification words it. -/
theorem pick_snippet_window_from_start {text keyword : Str} {window idx : Nat}
    (hf : pyFind (lower keyword) (lower text) = some idx) :
    pick_snippet text keyword window =
      normalize_ws ((text.take (idx + window)).drop (idx - window)) := by
  by_cases ht : text = []
  · subst ht
    rw [pick_snippet, if_pos rfl, List.take_nil, List.drop_nil, normalize_nil]
  · simp only [pick_snippet, if_neg ht, hf]
    rw [List.drop_take]
    congr 1
    rw [List.take_eq_take, List.length_drop]
    omega

/-- C1 counterexample: with text "xxbonusyy", keyword "bonus" and window 2,
the implementation returns the normalised slice ending `window` characters
after the occurrence start ("xxbo"), while the span the specification words
— up to `occurrence_end + window` — would give "xxbonusyy". -/
theorem pick_snippet_spec_mismatch :
    pick_snippet (lit "xxbonusyy") (lit "bonus") 2 = lit "xxbo" ∧
      pick_snippet_spec (lit "xxbonusyy") (lit "bonus") 2 = lit "xxbonusyy" ∧
      pick_snippet (lit "xxbonusyy") (lit "bonus") 2 ≠
        pick_snippet_spec (lit "xxbonusyy") (lit "bonus") 2 :=
  ⟨by decide, by decide, by decide⟩

/-- C1 witness: the amended window formula evaluated at the concrete inputs
of the counterexample. -/
theorem pick_snippet_window_from_start_witness :
    pick_snippet (lit "xxbonusyy") (lit "bonus") 2 =
      normalize_ws (((lit "xxbonusyy").take (2 + 2)).drop (2 - 2)) :=
  pick_snippet_window_from_start (by decide)

end Scrape

namespace Scrape

theorem pyOr_nil (a : Str) : pyOr a [] = a := by
  by_cases h : a = []
  · rw [pyOr, if_pos h, h]
  · rw [pyOr, if_neg h]

/-- C2 (amended): the evidence fields follow the keyword chains of
`snippetKeywords`; `bonus_snippet`, `spend_snippet` and `earn_snippet` each
fall back to their secondary keyword exactly when the primary `pick_snippet`
result is empty, while `fee_snippet` is a single `pick_snippet` with the one
keyword "annual fee" and has no fallback. -/
theorem snippet_keyword_chains (text : Str) :
    evidence text = snippetKeywords.map (fun p => (p.1, snippetFromChain text p.2)) ∧
    bonus_snippet text = (if pick_snippet text (lit "bonus") = []
      then pick_snippet text (lit "Earn") else pick_snippet text (lit "bonus")) ∧
    spend_snippet text = (if pick_snippet text (lit "spend") = []
      then pick_snippet text (lit "after you spend")
      else pick_snippet text (lit "spend")) ∧
    earn_snippet text = (if pick_snippet text (lit "per $1") = []
      then pick_snippet text (lit "x") else pick_snippet text (lit "per $1")) ∧
    fee_snippet text = pick_snippet text (lit "annual fee") := by
  refine ⟨?_, rfl, rfl, rfl, rfl⟩
  simp [evidence, snippetKeywords, snippetFromChain, bonus_snippet, spend_snippet,
    fee_snippet, earn_snippet, pyOr_nil]

/-- C2 counterexample: the `fee_snippet` chain has a single keyword, so it is
not the case that every snippet field has a two-keyword fallback chain. -/
theorem fee_snippet_chain_not_two :
    ("fee_snippet", ["annual fee"]) ∈ snippetKeywords ∧
      ¬ (∀ p ∈ snippetKeywords, p.2.length = 2) := by
  constructor
  · simp [snippetKeywords]
  · intro h
    have h1 := h ("fee_snippet", ["annual fee"]) (by simp [snippetKeywords])
    simp at h1

/-- C3: `find_first` returns the normalised match of the first pattern in
list order whose search succeeds anywhere in the text; nothing about where in
the text any pattern matches enters the result, so list order alone decides
priority. -/
theorem find_first_list_order (search : Str → Str → Option Str)
    (ps : List Str) (text : Str) :
    ∀ (i : Nat) (hi : i < ps.length) (m : Str),
      search (ps.get ⟨i, hi⟩) text = some m →
      (∀ j (hj : j < i), search (ps.get ⟨j, lt_trans hj hi⟩) text = none) →
      find_first search ps text = normalize_ws m := by
  induction ps with
  | nil => intro i hi; exact absurd hi (Nat.not_lt_zero i)
  | cons p rest ih =>
    intro i hi m hfound hearlier
    cases i with
    | zero =>
      have hp : search p text = some m := hfound
      rw [find_first, hp]
    | succ i' =>
      have h0 : search p text = none := hearlier 0 (Nat.succ_pos i')
      rw [find_first, h0]
      exact ih i' (Nat.lt_of_succ_lt_succ hi) m hfound
        (fun j hj => hearlier (j + 1) (Nat.succ_lt_succ hj))

/-- C3 witness: with patterns ["xyz", "abc"] and text "abc qqq xyz", the
first listed pattern wins although the later pattern "abc" matches earlier in
the text (at position 0). -/
theorem find_first_list_order_witness :
    find_first isearch [lit "xyz", lit "abc"] (lit "abc qqq xyz") =
        normalize_ws (lit "xyz") ∧
      isearch (lit "abc") (lit "abc qqq xyz") = some (lit "abc") :=
  ⟨find_first_list_order isearch [lit "xyz", lit "abc"] (lit "abc qqq xyz") 0
      (by decide) (lit "xyz") (by decide)
      (fun j hj => absurd hj (Nat.not_lt_zero j)),
   by decide⟩

/-- C9: `find_first` returns the empty string both on the empty pattern list
and on any pattern list none of whose patterns matches the text. -/
theorem find_first_no_match_empty (search : Str → Str → Option Str)
    (ps : List Str) (text : Str) (hnone : ∀ p ∈ ps, search p text = none) :
    find_first search [] text = [] ∧ find_first search ps text = [] := by
  refine ⟨rfl, ?_⟩
  revert hnone
  induction ps with
  | nil => intro _; rfl
  | cons p rest ih =>
    intro hnone
    have h0 : search p text = none := hnone p (List.mem_cons_self _ _)
    rw [find_first, h0]
    exact ih (fun q hq => hnone q (List.mem_cons_of_mem _ hq))

/-- C9 witness: the pattern "qq" does not match the text "abc". -/
theorem find_first_no_match_empty_witness :
    find_first isearch ([] : List Str) (lit "abc") = [] ∧
      find_first isearch [lit "qq"] (lit "abc") = [] :=
  find_first_no_match_empty isearch [lit "qq"] (lit "abc") (by decide)

/-- C4: every produced row carries a status, and any row whose status is not
"OK" has no extraction fields at all — a failed or skipped fetch never leaves
a partially populated row. -/
theorem row_not_ok_fields_none (search : Str → Str → Option Str)
    (fetchPage : Str → Except Str Str) (cards : List Card) (row : ResultRow)
    (hmem : row ∈ mainRows search fetchPage cards)
    (hstatus : row.status ≠ lit "OK") : row.fields = none := by
  rw [mainRows] at hmem
  rcases List.mem_map.mp hmem with ⟨c, _, rfl⟩
  by_cases hurl : (c.url.isEmpty || containsSub c.url sentinel) = true
  · rw [processCard, if_pos hurl]
  · cases hfetch : fetchPage c.url with
    | ok text =>
      exact absurd (by rw [processCard, if_neg hurl, hfetch]) hstatus
    | error kind =>
      rw [processCard, if_neg hurl, hfetch]

/-- C4 witness: a card with the placeholder url produces a non-OK row whose
fields are absent. -/
theorem row_not_ok_fields_none_witness :
    (processCard (fun _ _ => none) (fun _ => Except.error (lit "TimeoutError"))
        ⟨lit "c1", lit "Card", lit "Issuer", lit "PASTE_PUBLIC_CARD_URL_HERE"⟩).fields
      = none :=
  row_not_ok_fields_none (fun _ _ => none)
    (fun _ => Except.error (lit "TimeoutError"))
    [⟨lit "c1", lit "Card", lit "Issuer", lit "PASTE_PUBLIC_CARD_URL_HERE"⟩] _
    (by simp [mainRows]) (by decide)

/-- C5: a card whose url is the placeholder sentinel yields the MISSING_URL
row with no extraction fields, and the row does not depend on the fetch
collaborator at all — no fetch is attempted. -/
theorem missing_url_short_circuit (search : Str → Str → Option Str)
    (fetchPage : Str → Except Str Str) (c : Card)
    (hurl : c.url = lit "PASTE_PUBLIC_CARD_URL_HERE") :
    processCard search fetchPage c =
      { id := c.id, name := c.name, issuer := c.issuer, url := c.url,
        status := lit "MISSING_URL", fields := none } ∧
      ∀ g : Str → Except Str Str,
        processCard search fetchPage c = processCard search g c := by
  have hcond : (c.url.isEmpty || containsSub c.url sentinel) = true := by
    rw [hurl]; decide
  constructor
  · rw [processCard, if_pos hcond]
  · intro g
    rw [processCard, if_pos hcond, processCard, if_pos hcond]

/-- C5 witness: the sentinel card evaluated concretely. -/
theorem missing_url_short_circuit_witness :
    processCard (fun _ _ => none) (fun _ => Except.ok (lit "text"))
        ⟨lit "id1", lit "Name", lit "Iss", lit "PASTE_PUBLIC_CARD_URL_HERE"⟩ =
      { id := lit "id1", name := lit "Name", issuer := lit "Iss",
        url := lit "PASTE_PUBLIC_CARD_URL_HERE",
        status := lit "MISSING_URL", fields := none } :=
  (missing_url_short_circuit (fun _ _ => none) (fun _ => Except.ok (lit "text"))
    ⟨lit "id1", lit "Name", lit "Iss", lit "PASTE_PUBLIC_CARD_URL_HERE"⟩ rfl).1

end Scrape
